import Mathlib

/-!
Verification of the WvStreams typed-serialization layer (`wvserialize.h`)
and the backslash escape codec, against the repository's specification.

Modelling conventions:
* A byte is a `Nat` intended to lie in `[0, 256)`; reads reduce `% 256`
  exactly where the C code reinterprets memory as bytes.
* Machine integers are modelled by their bit pattern: a value of a
  scalar type of width `w` bytes is a `Nat < 256^w`.  Two's-complement
  signed values are identified with their bit pattern, which the C code
  preserves (all casts between same-width integer types keep the bits).
* The host is little-endian (x86/ARM, the platforms WvStreams targets),
  so storing a `w`-byte integer into memory lays down its little-endian
  bytes, and `htonl`/`htons` byte-swap.
* `WvBuf` is modelled as the list of its unread bytes: `put` appends,
  `get` consumes from the front, `peek` is non-consuming, `used` is the
  length, `merge` moves bytes from one buffer to another.  (The buffer
  implementation itself is outside the provided sources; these
  semantics are the ones `wvserialize.h` relies on, as documented in
  the specification's Buffer section.)
-/

namespace WvStreams

/-- Little-endian byte list of width `w` for bit pattern `v`:
low-order byte first, exactly `w` bytes. -/
def leBytes : Nat → Nat → List Nat
  | 0, _ => []
  | w + 1, v => v % 256 :: leBytes w (v / 256)

/-- Value of a byte list read little-endian (each cell reduced to a byte,
as the C code reinterprets raw memory). -/
def leVal : List Nat → Nat
  | [] => 0
  | b :: bs => b % 256 + 256 * leVal bs

/-- `htonl`: on the little-endian host, byte-swap of a 32-bit value. -/
def htonl (v : Nat) : Nat := leVal ((leBytes 4 v).reverse)

/-- `htons`: on the little-endian host, byte-swap of a 16-bit value. -/
def htons (v : Nat) : Nat := leVal ((leBytes 2 v).reverse)

/-- `ntohl` is the same byte swap as `htonl`. -/
def ntohl (v : Nat) : Nat := htonl v

/-- `ntohs` is the same byte swap as `htons`. -/
def ntohs (v : Nat) : Nat := htons v

/-- A WvBuf, reduced to its sequence of unread bytes.
Modelled from the spec: the buffer implementation is not among the
provided sources; the spec defines `put` as append, `get(n)` as
consuming the first `n` unread bytes, `peek(offset,n)` as a
non-consuming read, `avail`/`used` as the unread count, and
`merge(other,n)` as moving `n` bytes from `other`'s unread region. -/
structure WvBuf where
  data : List Nat
deriving DecidableEq, Repr

/-- `buf.put(p, n)`: append bytes. -/
def WvBuf.put (b : WvBuf) (bs : List Nat) : WvBuf := ⟨b.data ++ bs⟩

/-- `buf.used()`: number of unread bytes. -/
def WvBuf.used (b : WvBuf) : Nat := b.data.length

/-- `buf.get(n)`: consume and return the first `n` unread bytes. -/
def WvBuf.get (b : WvBuf) (n : Nat) : List Nat × WvBuf :=
  (b.data.take n, ⟨b.data.drop n⟩)

/-- `buf.peek(offset, n)`: read-only view, never advances the cursor. -/
def WvBuf.peek (b : WvBuf) (ofs n : Nat) : List Nat :=
  (b.data.drop ofs).take n

/-- `dst.merge(src, n)`: move `n` bytes from `src` to `dst`. -/
def WvBuf.merge (dst src : WvBuf) (n : Nat) : WvBuf × WvBuf :=
  (⟨dst.data ++ src.data.take n⟩, ⟨src.data.drop n⟩)

/-- `wv_serialize_scalar<T>(buf, t)` for a scalar type of width `w`
(the `sizeof(T)` dispatch is compile-time).  Width 8: `buf.put(&t, 8)`
— raw host bytes, little-endian on this host (the source's FIXME notes
that no conversion to network byte order is performed).  Width 4:
`int32_t i = htonl(t); buf.put(&i, 4)` — the four host bytes of the
byte-swapped value.  Width 2: `int32_t i = htons(t); buf.put(&i, 2)` —
the first two host bytes of the 32-bit cell holding `htons(t)`.
Width 1: the byte itself.  Other widths hit `assert(0)`. -/
def wv_serialize_scalar (w : Nat) (buf : WvBuf) (v : Nat) : WvBuf :=
  if w = 8 then buf.put (leBytes 8 v)
  else if w = 4 then buf.put (leBytes 4 (htonl v))
  else if w = 2 then buf.put ((leBytes 4 (htons v)).take 2)
  else if w = 1 then buf.put (leBytes 1 v)
  else buf

/-- `wv_deserialize_scalar<T>(buf)` for width `w`: if fewer than `w`
bytes are available, return `0` without touching the buffer; otherwise
consume `w` bytes via `get` and reinterpret: width 8 as a raw host
(little-endian) integer, width 4 through `ntohl`, width 2 through
`ntohs`, width 1 as the byte (the `int8_t` detour in the source
preserves the bit pattern). -/
def wv_deserialize_scalar (w : Nat) (buf : WvBuf) : Nat × WvBuf :=
  if buf.used < w then (0, buf)
  else if w = 8 then
    let r := buf.get 8
    (leVal r.1, r.2)
  else if w = 4 then
    let r := buf.get 4
    (ntohl (leVal r.1), r.2)
  else if w = 2 then
    let r := buf.get 2
    (ntohs (leVal r.1), r.2)
  else if w = 1 then
    let r := buf.get 1
    (leVal r.1, r.2)
  else (0, buf)

/-- The bytes `wv_serialize_scalar` appends (the branch bodies of
`wv_serialize_scalar`, without the surrounding buffer). -/
def scalarBytes (w : Nat) (v : Nat) : List Nat :=
  if w = 8 then leBytes 8 v
  else if w = 4 then leBytes 4 (htonl v)
  else if w = 2 then (leBytes 4 (htons v)).take 2
  else if w = 1 then leBytes 1 v
  else []

/-- `_wv_serialize(WvBuf&, WvStringParm)`: a WvString is `none` (null)
or its content bytes (a C string, hence no embedded zero byte).  The
source appends the content when non-null (`buf.putstr(s)`), then always
appends one terminating zero byte (`buf.put("", 1)`). -/
def wv_serialize_string (buf : WvBuf) (s : Option (List Nat)) : WvBuf :=
  (match s with
   | none => buf
   | some t => buf.put t).put [0]

/-- Split a byte list at its first zero byte, dropping the zero:
returns the content before the zero and the remainder after it. -/
def takeUntilNul : List Nat → List Nat × List Nat
  | [] => ([], [])
  | b :: bs =>
    if b = 0 then ([], bs)
    else
      let r := takeUntilNul bs
      (b :: r.1, r.2)

/-- Modelled from the spec: `_wv_deserialize<WvString>` is declared in
the provided header but defined elsewhere; the spec and the header's
doc comment say it reads and consumes bytes up to and including the
terminating zero, returning the content before the zero (stopping at
the end of the buffer if no zero is present). -/
def wv_deserialize_string (buf : WvBuf) : List Nat × WvBuf :=
  let r := takeUntilNul buf.data
  (r.1, ⟨r.2⟩)

/-- `_wv_serialize(WvBuf&, const WvBuf&)`: serialize `inbuf.used()` as
a `size_t` (width 8 on this platform), then append the unread bytes
obtained by the non-consuming `inbuf.peek(0, inbuf.used())`.  The
second component is the source buffer after the call: `peek` never
consumes, so it is returned unchanged. -/
def wv_serialize_buf (buf : WvBuf) (inbuf : WvBuf) : WvBuf × WvBuf :=
  ((wv_serialize_scalar 8 buf inbuf.used).put (inbuf.peek 0 inbuf.used),
   inbuf)

/-- `WvDeserialize<WvBuf*>::go`: read a `size_t` length, allocate a
fresh buffer (`new WvInPlaceBuf(new char[len], 0, len, true)` — empty,
capacity `len`), and `merge` `len` bytes into it from the source. -/
def wv_deserialize_buf (buf : WvBuf) : WvBuf × WvBuf :=
  let r := wv_deserialize_scalar 8 buf
  WvBuf.merge ⟨[]⟩ r.2 r.1

/-- `_wv_serialize(WvBuf&, const WvList<T>&)`: serialize the element
count as a `size_t` (width 8), then each element in iteration order.
The element serializer is a parameter, as the C template's
`_wv_serialize` for `T` is. -/
def wv_serialize_list (elemSer : WvBuf → α → WvBuf)
    (buf : WvBuf) (l : List α) : WvBuf :=
  l.foldl elemSer (wv_serialize_scalar 8 buf l.length)

/-- The element loop of `WvDeserialize<WvList<T>*>::go`: deserialize
`n` elements in order, appending each to the result list. -/
def deserializeElems (elemDe : WvBuf → α × WvBuf) :
    Nat → WvBuf → List α × WvBuf
  | 0, b => ([], b)
  | n + 1, b =>
    let r := elemDe b
    let rs := deserializeElems elemDe n r.2
    (r.1 :: rs.1, rs.2)

/-- `WvDeserialize<WvList<T>*>::go`: read a `size_t` element count,
then deserialize that many elements into a freshly allocated list. -/
def wv_deserialize_list (elemDe : WvBuf → α × WvBuf)
    (buf : WvBuf) : List α × WvBuf :=
  let r := wv_deserialize_scalar 8 buf
  deserializeElems elemDe r.1 r.2

/-- Modelled from the spec: the WvBackslashEncoder implementation is
not among the provided sources (only its unit test is).  Per the spec,
each byte in the must-escape set — newline 10, backspace 8, backslash
92 — becomes a backslash followed by its mnemonic character
(`n` = 110, `b` = 98, `\` = 92); every other byte passes through
unchanged, with no cross-call state. -/
def backslashEncodeByte (b : Nat) : List Nat :=
  if b = 10 then [92, 110]
  else if b = 8 then [92, 98]
  else if b = 92 then [92, 92]
  else [b]

/-- Encoding a chunk: the independent per-byte maps, concatenated. -/
def backslashEncode (bs : List Nat) : List Nat :=
  (bs.map backslashEncodeByte).flatten

/-- Modelled from the spec: translation of a completed escape pair
`backslash, c` by the WvBackslashDecoder's mnemonic table; an
unrecognized mnemonic falls back to emitting both bytes literally. -/
def backslashDecodePair (c : Nat) : List Nat :=
  if c = 110 then [10]
  else if c = 98 then [8]
  else if c = 92 then [92]
  else [92, c]

/-- Modelled from the spec: one step of the WvBackslashDecoder.  Its
sole internal state is whether a backslash is pending.  With no
pending backslash, a backslash is retained (emitting nothing) and any
other byte passes through; with a pending backslash, the pair is
translated and the state cleared. -/
def backslashDecodeStep : Bool → Nat → List Nat × Bool
  | false, b => if b = 92 then ([], true) else ([b], false)
  | true, c => (backslashDecodePair c, false)

/-- Decoding one chunk from a given state: fold the step over the
bytes, threading the pending-backslash state. -/
def backslashDecodeChunk (st : Bool) : List Nat → List Nat × Bool
  | [] => ([], st)
  | b :: bs =>
    let r := backslashDecodeStep st b
    let rs := backslashDecodeChunk r.2 bs
    (r.1 ++ rs.1, rs.2)

/-- Modelled from the spec: `flush()` with an unresolved pending
backslash emits it literally; otherwise it emits nothing. -/
def backslashDecodeFlush (st : Bool) : List Nat :=
  if st then [92] else []

/-- The decoder run over the test scenario: decode chunks in sequence,
threading the state, collecting each chunk's output. -/
def backslashDecodeRun (st : Bool) : List (List Nat) → List (List Nat) × Bool
  | [] => ([], st)
  | c :: cs =>
    let r := backslashDecodeChunk st c
    let rs := backslashDecodeRun r.2 cs
    (r.1 :: rs.1, rs.2)

/-- The five plaintext chunks of the unit test, as byte lists:
`"encode this!\n"`, `"baroofey\n"`, a single backslash, `"\nmagoo\b"`,
and a single space. -/
def plainChunks : List (List Nat) :=
  [[101, 110, 99, 111, 100, 101, 32, 116, 104, 105, 115, 33, 10],
   [98, 97, 114, 111, 111, 102, 101, 121, 10],
   [92],
   [10, 109, 97, 103, 111, 111, 8],
   [32]]

/-- The five escaped chunks the unit test expects: the newlines become
backslash-n, the backspace backslash-b, the lone backslash is doubled,
the space is untouched. -/
def escapedChunks : List (List Nat) :=
  [[101, 110, 99, 111, 100, 101, 32, 116, 104, 105, 115, 33, 92, 110],
   [98, 97, 114, 111, 111, 102, 101, 121, 92, 110],
   [92, 92],
   [92, 110, 109, 97, 103, 111, 111, 92, 98],
   [32]]

/-! ## Supporting lemmas -/

theorem wv_serialize_scalar_data (w : Nat) (buf : WvBuf) (v : Nat) :
    wv_serialize_scalar w buf v = buf.put (scalarBytes w v) := by
  unfold wv_serialize_scalar scalarBytes
  by_cases h8 : w = 8 <;> by_cases h4 : w = 4 <;> by_cases h2 : w = 2 <;>
    by_cases h1 : w = 1 <;> simp [h8, h4, h2, h1, WvBuf.put]

theorem leBytes_length (w v : Nat) : (leBytes w v).length = w := by
  induction w generalizing v with
  | zero => rfl
  | succ w ih => simp [leBytes, ih]

theorem leBytes_lt (w v : Nat) : ∀ b ∈ leBytes w v, b < 256 := by
  induction w generalizing v with
  | zero => intro b hb; simp [leBytes] at hb
  | succ w ih =>
    intro b hb
    simp only [leBytes, List.mem_cons] at hb
    rcases hb with h | h
    · omega
    · exact ih (v / 256) b h

theorem leVal_leBytes (w v : Nat) (hv : v < 256 ^ w) :
    leVal (leBytes w v) = v := by
  induction w generalizing v with
  | zero =>
    simp [leBytes, leVal]
    omega
  | succ w ih =>
    have hdiv : v / 256 < 256 ^ w := by
      rw [Nat.div_lt_iff_lt_mul (by norm_num)]
      calc v < 256 ^ (w + 1) := hv
        _ = 256 ^ w * 256 := by ring
    simp only [leBytes, leVal, ih (v / 256) hdiv]
    omega

theorem leBytes_leVal (l : List Nat) (h : ∀ b ∈ l, b < 256) :
    leBytes l.length (leVal l) = l := by
  induction l with
  | nil => rfl
  | cons b bs ih =>
    have hb : b < 256 := h b (List.mem_cons_self b bs)
    have hb' : b % 256 = b := Nat.mod_eq_of_lt hb
    simp only [List.length_cons, leBytes, leVal]
    have h1 : (b % 256 + 256 * leVal bs) % 256 = b := by omega
    have h2 : (b % 256 + 256 * leVal bs) / 256 = leVal bs := by omega
    rw [h1, h2, ih (fun x hx => h x (List.mem_cons_of_mem b hx))]

theorem leVal_lt (l : List Nat) : leVal l < 256 ^ l.length := by
  induction l with
  | nil => simp [leVal]
  | cons b bs ih =>
    simp only [leVal, List.length_cons, pow_succ]
    have : b % 256 < 256 := Nat.mod_lt _ (by norm_num)
    calc b % 256 + 256 * leVal bs < 256 + 256 * leVal bs := by omega
      _ ≤ 256 * (leVal bs + 1) := by ring_nf; omega
      _ ≤ 256 * 256 ^ bs.length := by
          have := ih
          exact Nat.mul_le_mul_left 256 (by omega)
      _ = 256 ^ bs.length * 256 := by ring

theorem htonl_lt (v : Nat) : htonl v < 256 ^ 4 := by
  have := leVal_lt ((leBytes 4 v).reverse)
  rwa [List.length_reverse, leBytes_length] at this

theorem htons_lt (v : Nat) : htons v < 256 ^ 2 := by
  have := leVal_lt ((leBytes 2 v).reverse)
  rwa [List.length_reverse, leBytes_length] at this

/-- Storing `htonl(v)` into a 32-bit cell on the little-endian host
lays down the big-endian bytes of `v`. -/
theorem leBytes_htonl (v : Nat) :
    leBytes 4 (htonl v) = (leBytes 4 v).reverse := by
  have := leBytes_leVal ((leBytes 4 v).reverse)
    (fun b hb => leBytes_lt 4 v b (List.mem_reverse.mp hb))
  rwa [List.length_reverse, leBytes_length] at this

/-- Storing `htons(v)` into a 16-bit cell on the little-endian host
lays down the big-endian bytes of `v`. -/
theorem leBytes_htons (v : Nat) :
    leBytes 2 (htons v) = (leBytes 2 v).reverse := by
  have := leBytes_leVal ((leBytes 2 v).reverse)
    (fun b hb => leBytes_lt 2 v b (List.mem_reverse.mp hb))
  rwa [List.length_reverse, leBytes_length] at this

theorem htonl_htonl (v : Nat) (hv : v < 256 ^ 4) : htonl (htonl v) = v := by
  unfold htonl
  rw [show leVal ((leBytes 4 v).reverse) = htonl v from rfl, leBytes_htonl,
    List.reverse_reverse]
  exact leVal_leBytes 4 v hv

theorem htons_htons (v : Nat) (hv : v < 256 ^ 2) : htons (htons v) = v := by
  unfold htons
  rw [show leVal ((leBytes 2 v).reverse) = htons v from rfl, leBytes_htons,
    List.reverse_reverse]
  exact leVal_leBytes 2 v hv

/-- `take 2` of the four little-endian bytes of a 32-bit cell is
exactly the two little-endian bytes of the value: what
`int32_t i = htons(t); buf.put(&i, 2)` emits on the little-endian host. -/
theorem take_two_leBytes_four (x : Nat) :
    (leBytes 4 x).take 2 = leBytes 2 x := rfl

/-- Widths 2 and 4 of the scalar serializer genuinely emit big-endian
bytes (the width-8 branch does not; see the C1 theorem). -/
theorem scalarBytes_bigendian_two_four (v : Nat) :
    scalarBytes 2 v = (leBytes 2 v).reverse ∧
    scalarBytes 4 v = (leBytes 4 v).reverse := by
  constructor
  · show (leBytes 4 (htons v)).take 2 = (leBytes 2 v).reverse
    rw [take_two_leBytes_four, leBytes_htons]
  · show leBytes 4 (htonl v) = (leBytes 4 v).reverse
    exact leBytes_htonl v

/-- Round trip of the scalar codec, with arbitrary bytes following the
encoded scalar in the buffer. -/
theorem deserialize_serialize_scalar (w v : Nat) (rest : List Nat)
    (hw : w = 1 ∨ w = 2 ∨ w = 4 ∨ w = 8) (hv : v < 256 ^ w) :
    wv_deserialize_scalar w ⟨scalarBytes w v ++ rest⟩ = (v, ⟨rest⟩) := by
  have hget : ∀ u : Nat, ∀ l r : List Nat, l.length = u →
      (WvBuf.mk (l ++ r)).get u = (l, ⟨r⟩) := by
    intro u l r hl
    simp [WvBuf.get, ← hl, List.take_left, List.drop_left]
  rcases hw with h | h | h | h <;> subst h
  · have hv' : v % 256 = v := Nat.mod_eq_of_lt (by simpa using hv)
    have hb : scalarBytes 1 v = [v] := by
      show [v % 256] = [v]
      rw [hv']
    have hg := hget 1 [v] rest (by simp)
    simp only [wv_deserialize_scalar, hb, WvBuf.used]
    rw [if_neg (by simp)]
    simp only [if_true, hg, leVal]
    refine Prod.ext ?_ rfl
    simp
    omega
  · have hb : scalarBytes 2 v = leBytes 2 (htons v) := by
      simp [scalarBytes, take_two_leBytes_four]
    have hg := hget 2 (leBytes 2 (htons v)) rest (leBytes_length 2 _)
    simp only [wv_deserialize_scalar, hb, WvBuf.used]
    rw [if_neg (by simp [leBytes_length])]
    simp only [if_true, hg]
    simp only [leVal_leBytes 2 (htons v) (htons_lt v), ntohs,
      htons_htons v hv]
    norm_num
  · have hb : scalarBytes 4 v = leBytes 4 (htonl v) := rfl
    have hg := hget 4 (leBytes 4 (htonl v)) rest (leBytes_length 4 _)
    simp only [wv_deserialize_scalar, hb, WvBuf.used]
    rw [if_neg (by simp [leBytes_length])]
    simp only [if_true, hg]
    simp only [leVal_leBytes 4 (htonl v) (htonl_lt v), ntohl,
      htonl_htonl v hv]
    norm_num
  · have hb : scalarBytes 8 v = leBytes 8 v := rfl
    have hg := hget 8 (leBytes 8 v) rest (leBytes_length 8 _)
    simp only [wv_deserialize_scalar, hb, WvBuf.used]
    rw [if_neg (by simp [leBytes_length])]
    simp only [if_true, hg]
    simp only [leVal_leBytes 8 v hv]

/-- Consuming a serialized string from the front of a buffer: the
content before the first zero byte, and the bytes after it. -/
theorem takeUntilNul_append (t rest : List Nat) (h : 0 ∉ t) :
    takeUntilNul (t ++ 0 :: rest) = (t, rest) := by
  induction t with
  | nil => simp [takeUntilNul]
  | cons b bs ih =>
    have hb : ¬(b = 0) := by
      intro hb
      exact h (hb ▸ List.mem_cons_self b bs)
    have ih' := ih (fun hm => h (List.mem_cons_of_mem b hm))
    simp only [List.cons_append, takeUntilNul, if_neg hb, List.append_eq,
      ih']

theorem WvBuf.put_put (b : WvBuf) (x y : List Nat) :
    (b.put x).put y = b.put (x ++ y) := by
  simp [WvBuf.put, List.append_assoc]

/-- The list serializer's element fold appends the element encodings
in iteration order (element type: a width-4 scalar). -/
theorem foldl_serialize_scalar_four (l : List Nat) (b : WvBuf) :
    (l.foldl (wv_serialize_scalar 4) b).data
      = b.data ++ (l.map (scalarBytes 4)).flatten := by
  induction l generalizing b with
  | nil => simp
  | cons a as ih =>
    simp only [List.foldl_cons, List.map_cons, List.flatten_cons]
    rw [ih, wv_serialize_scalar_data]
    simp [WvBuf.put, List.append_assoc]

/-- The element loop of the list deserializer recovers the elements,
given their concatenated encodings followed by arbitrary bytes
(element type: a width-4 scalar). -/
theorem deserializeElems_scalar_four (l : List Nat) (rest : List Nat)
    (hl : ∀ v ∈ l, v < 256 ^ 4) :
    deserializeElems (wv_deserialize_scalar 4) l.length
      ⟨(l.map (scalarBytes 4)).flatten ++ rest⟩ = (l, ⟨rest⟩) := by
  induction l generalizing rest with
  | nil => simp [deserializeElems]
  | cons a as ih =>
    have ha : a < 256 ^ 4 := hl a (List.mem_cons_self a as)
    have hstep := deserialize_serialize_scalar 4 a
      ((as.map (scalarBytes 4)).flatten ++ rest) (by norm_num) ha
    simp only [List.map_cons, List.flatten_cons, List.length_cons,
      deserializeElems, List.append_assoc, hstep]
    simp [ih rest (fun v hv => hl v (List.mem_cons_of_mem a hv))]

/-- Decoding a concatenation threads the pending-backslash state from
the first part into the second. -/
theorem backslashDecodeChunk_append (st : Bool) (a b : List Nat) :
    backslashDecodeChunk st (a ++ b) =
      ((backslashDecodeChunk st a).1 ++
         (backslashDecodeChunk (backslashDecodeChunk st a).2 b).1,
       (backslashDecodeChunk (backslashDecodeChunk st a).2 b).2) := by
  induction a generalizing st with
  | nil => simp [backslashDecodeChunk]
  | cons x xs ih =>
    simp only [List.cons_append, backslashDecodeChunk, List.append_eq, ih,
      List.append_assoc]

/-! ## The claims -/

/-- C1: the claim asserts big-endian output for every width in
{1,2,4,8}, but the width-8 branch of `wv_serialize_scalar` is
`buf.put(&t, 8)` — the host's (little-endian) bytes, as the source's
FIXME comment concedes.  Serializing the 8-byte value 1 appends
`[1,0,0,0,0,0,0,0]`, not the big-endian image of 1 (the reverse of its
little-endian bytes, `[0,0,0,0,0,0,0,1]`). -/
theorem claim1_width8_not_bigendian :
    (wv_serialize_scalar 8 ⟨[]⟩ 1).data = [1, 0, 0, 0, 0, 0, 0, 0] ∧
    (wv_serialize_scalar 8 ⟨[]⟩ 1).data ≠ (leBytes 8 1).reverse := by
  decide

/-- C2: for every supported scalar width w ∈ {1,2,4,8} and every
representable bit pattern v < 256^w (zero, minimum and maximum
included), deserializing the buffer produced by serializing v yields v
back, with the buffer fully consumed. -/
theorem claim2_scalar_roundtrip (w v : Nat)
    (hw : w = 1 ∨ w = 2 ∨ w = 4 ∨ w = 8) (hv : v < 256 ^ w) :
    wv_deserialize_scalar w (wv_serialize_scalar w ⟨[]⟩ v) = (v, ⟨[]⟩) := by
  rw [wv_serialize_scalar_data]
  have h := deserialize_serialize_scalar w v [] hw hv
  simpa [WvBuf.put] using h

theorem claim2_scalar_roundtrip_witness :
    wv_deserialize_scalar 8 (wv_serialize_scalar 8 ⟨[]⟩ 18446744073709551615)
      = (18446744073709551615, ⟨[]⟩) :=
  claim2_scalar_roundtrip 8 18446744073709551615 (by norm_num) (by norm_num)

/-- C3: deserializing a scalar of width w from a buffer holding fewer
than w unread bytes returns the zero placeholder and leaves the buffer
untouched (so `avail()` afterwards equals `avail()` before). -/
theorem claim3_scalar_underflow (w : Nat) (buf : WvBuf)
    (h : buf.used < w) :
    wv_deserialize_scalar w buf = (0, buf) := by
  unfold wv_deserialize_scalar
  rw [if_pos h]

theorem claim3_scalar_underflow_witness :
    wv_deserialize_scalar 4 ⟨[1, 2]⟩ = (0, ⟨[1, 2]⟩) :=
  claim3_scalar_underflow 4 ⟨[1, 2]⟩ (by decide)

/-- C4: the escape encoder maps the five test chunks to exactly the
five expected escaped chunks; only newline (10), backspace (8) and
backslash (92) are escaped, as backslash plus one mnemonic byte; every
other byte passes through unchanged; and encoding carries no state
across chunks (it distributes over concatenation). -/
theorem claim4_backslash_encode_test :
    plainChunks.map backslashEncode = escapedChunks ∧
    (∀ b : Nat, b ≠ 10 → b ≠ 8 → b ≠ 92 → backslashEncodeByte b = [b]) ∧
    backslashEncodeByte 10 = [92, 110] ∧
    backslashEncodeByte 8 = [92, 98] ∧
    backslashEncodeByte 92 = [92, 92] ∧
    (∀ xs ys : List Nat,
      backslashEncode (xs ++ ys) = backslashEncode xs ++ backslashEncode ys) := by
  refine ⟨by decide, ?_, by decide, by decide, by decide, ?_⟩
  · intro b h10 h8 h92
    simp [backslashEncodeByte, h10, h8, h92]
  · intro xs ys
    simp [backslashEncode]

theorem claim4_backslash_encode_test_witness :
    backslashEncodeByte 65 = [65] :=
  claim4_backslash_encode_test.2.1 65 (by decide) (by decide) (by decide)

/-- C5: the escape decoder, started with no pending backslash and fed
the five escaped chunks in sequence, emits exactly the five original
chunks (the doubled backslash arriving as its own chunk decoding to a
single backslash) and ends with no pending state; a chunk consisting
of a lone backslash emits nothing and leaves the backslash as the sole
pending state; the next call resolves the pending backslash through
the mnemonic table; decoding distributes over concatenation by
threading that state; and `flush` with a pending backslash emits it
literally instead of dropping it. -/
theorem claim5_backslash_decode_test :
    backslashDecodeRun false escapedChunks = (plainChunks, false) ∧
    backslashDecodeChunk false [92] = ([], true) ∧
    (∀ c : Nat, backslashDecodeChunk true (c :: []) =
      (backslashDecodePair c, false)) ∧
    (∀ st : Bool, ∀ a b : List Nat,
      backslashDecodeChunk st (a ++ b) =
        ((backslashDecodeChunk st a).1 ++
           (backslashDecodeChunk (backslashDecodeChunk st a).2 b).1,
         (backslashDecodeChunk (backslashDecodeChunk st a).2 b).2)) ∧
    backslashDecodeFlush true = [92] ∧
    backslashDecodeFlush false = [] := by
  refine ⟨by decide, by decide, ?_, backslashDecodeChunk_append, by decide,
    by decide⟩
  intro c
  simp [backslashDecodeChunk, backslashDecodeStep]

/-- C6: serializing a text value appends its content bytes followed by
exactly one zero terminator; a null text and an empty text both append
just the single zero byte, so their serializations coincide. -/
theorem claim6_string_serialize (buf : WvBuf) (t : List Nat) :
    wv_serialize_string buf (some t) = buf.put (t ++ [0]) ∧
    wv_serialize_string buf none = buf.put [0] ∧
    wv_serialize_string buf none = wv_serialize_string buf (some []) := by
  refine ⟨?_, rfl, ?_⟩
  · show (buf.put t).put [0] = buf.put (t ++ [0])
    exact WvBuf.put_put buf t [0]
  · show buf.put [0] = (buf.put []).put [0]
    simp [WvBuf.put]

/-- C7: for any text content with no embedded zero byte, deserializing
the buffer produced by serializing it returns the content back with
the buffer fully consumed; the empty text round-trips to the empty
text. -/
theorem claim7_string_roundtrip (t : List Nat) (h : 0 ∉ t) :
    wv_deserialize_string (wv_serialize_string ⟨[]⟩ (some t))
      = (t, ⟨[]⟩) := by
  have hs : (wv_serialize_string ⟨[]⟩ (some t)).data = t ++ 0 :: [] := by
    simp [wv_serialize_string, WvBuf.put]
  simp only [wv_deserialize_string, hs, takeUntilNul_append t [] h]

theorem claim7_string_roundtrip_witness :
    wv_deserialize_string (wv_serialize_string ⟨[]⟩ (some []))
      = ([], ⟨[]⟩) :=
  claim7_string_roundtrip [] (by decide)

/-- C8: serializing a list of N width-4 scalars emits the width-8
count prefix for N followed by the element encodings in order, and
deserializing that buffer yields a fresh list equal in order and value
to the original, with the buffer fully consumed; N = 0 round-trips to
the empty list rather than failing. -/
theorem claim8_list_roundtrip (l : List Nat)
    (hl : ∀ v ∈ l, v < 256 ^ 4) (hn : l.length < 256 ^ 8) :
    (wv_serialize_list (wv_serialize_scalar 4) ⟨[]⟩ l).data
        = scalarBytes 8 l.length ++ (l.map (scalarBytes 4)).flatten ∧
    wv_deserialize_list (wv_deserialize_scalar 4)
        (wv_serialize_list (wv_serialize_scalar 4) ⟨[]⟩ l) = (l, ⟨[]⟩) ∧
    wv_deserialize_list (wv_deserialize_scalar 4)
        (wv_serialize_list (wv_serialize_scalar 4) ⟨[]⟩ ([] : List Nat))
      = ([], ⟨[]⟩) := by
  have hdata : (wv_serialize_list (wv_serialize_scalar 4) ⟨[]⟩ l).data
      = scalarBytes 8 l.length ++ (l.map (scalarBytes 4)).flatten := by
    unfold wv_serialize_list
    rw [foldl_serialize_scalar_four, wv_serialize_scalar_data]
    simp [WvBuf.put]
  refine ⟨hdata, ?_, ?_⟩
  · have hpre := deserialize_serialize_scalar 8 l.length
      ((l.map (scalarBytes 4)).flatten) (by norm_num) hn
    have helems := deserializeElems_scalar_four l [] hl
    unfold wv_deserialize_list
    have hb : wv_serialize_list (wv_serialize_scalar 4) ⟨[]⟩ l
        = ⟨scalarBytes 8 l.length ++ (l.map (scalarBytes 4)).flatten⟩ := by
      cases hw : wv_serialize_list (wv_serialize_scalar 4) ⟨[]⟩ l
      simpa [hw] using hdata
    rw [hb, hpre]
    simpa using helems
  · decide

theorem claim8_list_roundtrip_witness :
    wv_deserialize_list (wv_deserialize_scalar 4)
        (wv_serialize_list (wv_serialize_scalar 4) ⟨[]⟩ [0, 4294967295])
      = ([0, 4294967295], ⟨[]⟩) :=
  (claim8_list_roundtrip [0, 4294967295] (by decide) (by decide)).2.1

/-- C9: serializing a nested buffer appends the width-8 length prefix
for its unread byte count followed by exactly those bytes, leaves the
source buffer untouched (the bytes are read with the non-consuming
`peek`), and deserializing the result yields a fresh buffer whose
contents equal the source's unread bytes, with the outer buffer fully
consumed. -/
theorem claim9_buf_roundtrip (out inbuf : WvBuf)
    (h : inbuf.used < 256 ^ 8) :
    (wv_serialize_buf out inbuf).1
        = out.put (scalarBytes 8 inbuf.used ++ inbuf.data) ∧
    (wv_serialize_buf out inbuf).2 = inbuf ∧
    wv_deserialize_buf ((wv_serialize_buf ⟨[]⟩ inbuf).1)
      = (⟨inbuf.data⟩, ⟨[]⟩) := by
  have hpeek : inbuf.peek 0 inbuf.used = inbuf.data := by
    simp [WvBuf.peek, WvBuf.used]
  have hser : ∀ b : WvBuf, (wv_serialize_buf b inbuf).1
      = b.put (scalarBytes 8 inbuf.used ++ inbuf.data) := by
    intro b
    show (wv_serialize_scalar 8 b inbuf.used).put (inbuf.peek 0 inbuf.used)
      = b.put (scalarBytes 8 inbuf.used ++ inbuf.data)
    rw [hpeek, wv_serialize_scalar_data, WvBuf.put_put]
  refine ⟨hser out, rfl, ?_⟩
  rw [hser ⟨[]⟩]
  have hpre := deserialize_serialize_scalar 8 inbuf.used inbuf.data
    (by norm_num) h
  unfold wv_deserialize_buf
  have hput : (WvBuf.mk []).put (scalarBytes 8 inbuf.used ++ inbuf.data)
      = ⟨scalarBytes 8 inbuf.used ++ inbuf.data⟩ := by
    simp [WvBuf.put]
  rw [hput, hpre]
  simp [WvBuf.merge, WvBuf.used]

theorem claim9_buf_roundtrip_witness :
    wv_deserialize_buf ((wv_serialize_buf ⟨[]⟩ ⟨[5, 6, 7]⟩).1)
      = (⟨[5, 6, 7]⟩, ⟨[]⟩) :=
  (claim9_buf_roundtrip ⟨[]⟩ ⟨[5, 6, 7]⟩ (by norm_num [WvBuf.used])).2.2

/-- C10: on a buffer holding fewer than the 8 bytes the size prefix
needs, the nested-buffer deserializer returns a fresh empty buffer and
the list deserializer a fresh empty list, in both cases consuming
nothing and signalling no error — outcomes identical to deserializing
a legitimately serialized empty buffer or empty list. -/
theorem claim10_composite_underflow (buf : WvBuf) (h : buf.used < 8) :
    wv_deserialize_buf buf = (⟨[]⟩, buf) ∧
    wv_deserialize_list (wv_deserialize_scalar 4) buf = ([], buf) ∧
    wv_deserialize_buf ((wv_serialize_buf ⟨[]⟩ ⟨[]⟩).1) = (⟨[]⟩, ⟨[]⟩) ∧
    wv_deserialize_list (wv_deserialize_scalar 4)
        (wv_serialize_list (wv_serialize_scalar 4) ⟨[]⟩ ([] : List Nat))
      = ([], ⟨[]⟩) := by
  have hz : wv_deserialize_scalar 8 buf = (0, buf) := by
    unfold wv_deserialize_scalar
    rw [if_pos h]
  refine ⟨?_, ?_, by decide, by decide⟩
  · unfold wv_deserialize_buf
    rw [hz]
    simp [WvBuf.merge]
  · unfold wv_deserialize_list
    rw [hz]
    rfl

theorem claim10_composite_underflow_witness :
    wv_deserialize_buf ⟨[1, 2, 3]⟩ = (⟨[]⟩, ⟨[1, 2, 3]⟩) ∧
    wv_deserialize_list (wv_deserialize_scalar 4) ⟨[1, 2, 3]⟩
      = ([], ⟨[1, 2, 3]⟩) :=
  ⟨(claim10_composite_underflow ⟨[1, 2, 3]⟩ (by decide)).1,
   (claim10_composite_underflow ⟨[1, 2, 3]⟩ (by decide)).2.1⟩

end WvStreams
